import Mathlib

/-!
Shallow embedding of the flat_log_parser repository (src/flat_log_parser/functions.py).

Python strings are modelled as Lean String (with most operations carried out on the
underlying List Char so that everything computes and is provable by induction).
External collaborators are parameters:
* the dateutil parser is a parameter parseDT : String -> Option String,
* the filesystem probe of add_filenames is a parameter touchOK : String -> Bool
  together with an explicit scratch-directory state FS,
* path existence at write time is a parameter pathExists : String -> Bool,
* datetime.now() at assembly time is a parameter now : String,
* the input file read by get_notes_from_path is passed as its content string.
All control flow, error propagation and data transformations are translated from
the source, one Python function per Lean definition, keeping the source names.
-/

deriving instance DecidableEq for Except

/-- Python str.strip removes these whitespace characters from both ends
(space, tab, newline, carriage return, vertical tab, form feed). -/
def isPyWS (c : Char) : Bool :=
  c = ' ' || c = '\t' || c = '\n' || c = '\r' || c = Char.ofNat 11 || c = Char.ofNat 12

/-- Python str.strip on a list of characters. -/
def pyStripL (l : List Char) : List Char :=
  ((l.dropWhile isPyWS).reverse.dropWhile isPyWS).reverse

/-- Python str.strip on a string. -/
def pyStrip (s : String) : String := ⟨pyStripL s.data⟩

/-- Python str.lower, character by character. -/
def lowerL (l : List Char) : List Char := l.map Char.toLower

/-- The record produced by extract_note_fields: the four named capture groups of
the composite pattern (datetime, title, content, tags). -/
structure Fields where
  datetime : String
  title : String
  content : String
  tags : String
  deriving DecidableEq

/-- Character-class sequence of the timestamp pattern
d d d d - d d - d d space d d : d d : d d used both by the
splitter lookahead and by extract_note_fields. -/
def dtShape : List (Char → Bool) :=
  [Char.isDigit, Char.isDigit, Char.isDigit, Char.isDigit, (· = '-'),
   Char.isDigit, Char.isDigit, (· = '-'), Char.isDigit, Char.isDigit, (· = ' '),
   Char.isDigit, Char.isDigit, (· = ':'), Char.isDigit, Char.isDigit, (· = ':'),
   Char.isDigit, Char.isDigit]

/-- Does the character list match the 19-character timestamp pattern exactly? -/
def dtOK (l : List Char) : Bool :=
  l.length == dtShape.length && (dtShape.zip l).all fun pc => pc.1 pc.2

/-- The literal " tags: " that separates content from the tag string. -/
def sTags : List Char := (" tags: ").data

/-- The tail pattern of the composite regex after the literal " tags: ":
a greedy dot-star followed by the dollar anchor. It matches when the rest
contains no newline, or exactly one newline as its very last character, and
captures everything before that final newline. -/
def tagsTail (s : List Char) : Option (List Char) :=
  let pre := s.takeWhile fun c => c ≠ '\n'
  let post := s.drop pre.length
  if post = [] ∨ post = ['\n'] then some pre else none

/-- The lazy content part of the composite regex: consume at least one
non-newline character, and at each stop try the literal " tags: " followed by
tagsTail; on failure extend (regex backtracking of a lazy dot-plus whose only
stop conditions are the " tag" lookahead and the subsequent literal). Returns
the captured content (appended to acc) and the captured tag string. -/
def contentLoop : List Char → List Char → Option (List Char × List Char)
  | _, [] => none
  | acc, c :: rest =>
    if c = '\n' then none
    else if sTags.isPrefixOf rest then
      match tagsTail (rest.drop sTags.length) with
      | some tags => some (acc ++ [c], tags)
      | none => contentLoop (acc ++ [c]) rest
    else contentLoop (acc ++ [c]) rest

/-- The boundary the composite regex requires directly after the title group:
a literal dot followed by a literal space. A candidate title stop position
succeeds only when the remaining text starts with ". "; the lookahead
accepting a dot or a question mark is subsumed, because a stop at a question
mark always fails the subsequent literal dot. -/
def dotSpace : List Char → Option (List Char)
  | c1 :: c2 :: s => if c1 = '.' ∧ c2 = ' ' then some s else none
  | _ => none

/-- The lazy title part of the composite regex: consume at least one
non-newline character, at each stop require the ". " boundary and then the
content and tag parts; on any failure extend the title by one character
(lazy dot-plus backtracking). Returns title, content and tag captures. -/
def titleLoop : List Char → List Char → Option (List Char × List Char × List Char)
  | _, [] => none
  | acc, c :: rest =>
    if c = '\n' then none
    else
      match dotSpace rest with
      | some s2 =>
        match contentLoop [] s2 with
        | some (content, tags) => some (acc ++ [c], content, tags)
        | none => titleLoop (acc ++ [c]) rest
      | none => titleLoop (acc ++ [c]) rest

/-- Translation of extract_note_fields: match the composite pattern
(timestamp)(" - ")(title up to the first dot-or-question lookahead)
(". ")(lazy content)(" tags: ")(dot-star dollar) against the note and return
the four captures, or none when the pattern does not match. The two
lookbehind assertions of the source pattern always hold at the positions
where they are tested (each checks the text just matched by the preceding
group), so they impose no extra condition. -/
def extract_note_fields (note : String) : Option Fields :=
  let s := note.data
  if dtOK (s.take 19) then
    match s.drop 19 with
    | ' ' :: '-' :: ' ' :: s2 =>
      match titleLoop [] s2 with
      | some (t, c, tg) => some ⟨⟨s.take 19⟩, ⟨t⟩, ⟨c⟩, ⟨tg⟩⟩
      | _ => none
    | _ => none
  else none

/-- Errors of the note splitter validation loop in get_notes_from_path. -/
inductive SplitErr where
  | indexError
  | noStart2
  | noEndBracket
  deriving DecidableEq

/-- The split performed by get_notes_from_path: scan the text and break at
every two consecutive newlines that are directly preceded by a closing
bracket and directly followed by a 19-character timestamp (the lookbehind
and lookahead of the split pattern); the two newlines are consumed. The skip
flag is true on the step directly after a boundary was found, so that the
second newline of the separator is consumed without being rescanned. -/
def splitGo (skip : Bool) (cur : List Char) : List Char → List (List Char)
  | [] => [cur]
  | c :: rest =>
    if skip then splitGo false cur rest
    else if c = '\n' ∧ rest.head? = some '\n' ∧ cur.getLast? = some ']' ∧
        dtOK ((rest.drop 1).take 19) then
      cur :: splitGo true [] rest
    else splitGo false (cur ++ [c]) rest

/-- The per-block validation loop of get_notes_from_path: the block must be
nonempty (indexing an empty block raises IndexError), start with the
character 2 and end with a closing bracket. -/
def check_note (l : List Char) : Except SplitErr Unit :=
  match l.head? with
  | none => .error .indexError
  | some c =>
    if c ≠ '2' then .error .noStart2
    else if l.getLast? ≠ some ']' then .error .noEndBracket
    else .ok ()

/-- Translation of get_notes_from_path, parameterised by the file content:
split the log, then run the validation loop, raising at the first offending
block. -/
def get_notes_from_path (content : String) : Except SplitErr (List String) :=
  let notes := splitGo false [] content.data
  match notes.findSome? (fun n => match check_note n with | .error e => some e | .ok _ => none) with
  | some e => .error e
  | none => .ok (notes.map fun l => ⟨l⟩)

/-- Errors of decompose_notes. withValueErrorTypeError models the statement
with ValueError as e executed when some block has no match: entering a with
statement on the ValueError class itself raises a TypeError (the class is not
a context manager) before any diagnostic note is attached, so the error
carries no count, no indices and no block contents; the diagnostic ValueError
the source builds notes for is never constructed or raised. -/
inductive DecompErr where
  | withValueErrorTypeError
  | noMatchValueError
  deriving DecidableEq

/-- Translation of check_notes_without_matches: when at least one block
produced no match, the with statement on ValueError raises (see DecompErr). -/
def check_notes_without_matches (decomposed : List (Option Fields)) : Except DecompErr Unit :=
  if decomposed.any (fun o => o.isNone) then .error .withValueErrorTypeError else .ok ()

/-- Translation of decompose_notes: extract every block, run
check_notes_without_matches, then raise when no block at all matched
(Python: if not any(decomposed_notes)); otherwise return the field records. -/
def decompose_notes (notes : List String) : Except DecompErr (List Fields) :=
  let d := notes.map extract_note_fields
  match check_notes_without_matches d with
  | .error e => .error e
  | .ok _ =>
    if d.any (fun o => o.isSome) = false then .error .noMatchValueError
    else .ok (d.filterMap id)

/-- Translation of validate_datetimes, parameterised by the external
dateutil parser: rewrite every parseable datetime in place (a failing record
keeps its raw value), collect the failing records, and raise a single error
carrying the failure count and the title / raw datetime of every failing
record. -/
def validate_datetimes (parseDT : String → Option String) (notes : List Fields) :
    Except (Nat × List (String × String)) (List Fields) :=
  let updated := notes.map fun n =>
    match parseDT n.datetime with
    | some d => ({ n with datetime := d }, true)
    | none => (n, false)
  let failures := (updated.filter fun p => !p.2).map fun p => (p.1.title, p.1.datetime)
  if failures = [] then .ok (updated.map fun p => p.1)
  else .error (failures.length, failures)

/-- Replace every space by an underscore (Python str.replace of a single
character by a single character is a character map). -/
def underscoreSpaces (l : List Char) : List Char :=
  l.map fun c => if c = ' ' then '_' else c

/-- The characters removed by the cleaning loop of add_filenames:
double quote, comma, hyphen, apostrophe, question mark, caret
(the quote characters are written via their code points 34 and 39). -/
def delSet : List Char := [Char.ofNat 34, ',', '-', Char.ofNat 39, '?', '^']

/-- The chained single-character str.replace(ch, empty) calls of
add_filenames delete every occurrence of each character of delSet, which is
a filter on the character list. -/
def removeDel (l : List Char) : List Char := l.filter fun c => !(delSet.contains c)

/-- The fixed file extension appended by add_filenames. -/
def mdExt : List Char := (".md").data

/-- The cleaning block inside the loop of add_filenames: lower-case, strip,
drop one trailing question mark, comma or dot (indexing name[-1] on an empty
string raises IndexError, modelled as none), replace spaces by underscores,
append the extension, then delete the disallowed characters. -/
def cleanNameL (l : List Char) : Option (List Char) :=
  let n1 := pyStripL (lowerL l)
  match n1.getLast? with
  | none => none
  | some c =>
    let n2 := if c = '?' ∨ c = ',' ∨ c = '.' then n1.dropLast else n1
    some (removeDel (underscoreSpaces n2 ++ mdExt))

/-- The cleaning block of add_filenames on a title string. -/
def clean_name (title : String) : Option String := (cleanNameL title.data).map fun l => ⟨l⟩

/-- Modelled from the spec: the filename derivation of section 4.4 stated
exactly in the order the specification gives it (lower-case, trim, strip one
trailing punctuation character if present, replace spaces, append the
extension, remove the disallowed characters); used to compare the source
cleaning block against the specified transform. -/
def spec_filename (title : String) : String :=
  let n1 := pyStripL (lowerL title.data)
  let n2 := match n1.getLast? with
    | some c => if c = '?' ∨ c = ',' ∨ c = '.' then n1.dropLast else n1
    | none => n1
  ⟨removeDel (underscoreSpaces n2 ++ mdExt)⟩

/-- Errors raised inside add_filenames. touchExists models a FileExistsError
from touch(exist_ok=False) on an existing probe file; unlinkMissing models
the FileNotFoundError raised by the unlink call of the inner finally block
when the probe file was never created — in Python this exception replaces
the annotated OSError that the except branch re-raised. -/
inductive FnErr where
  | indexError
  | touchExists (name : String)
  | unlinkMissing (name : String)
  | mkdirExists
  | rmdirFailed
  deriving DecidableEq

/-- The scratch-directory state of add_filenames: none when the directory
does not exist, some files when it exists and contains the given files. -/
structure FS where
  scratch : Option (List String)
  deriving DecidableEq

/-- The per-note loop of add_filenames, tracking the files present in the
scratch directory. For each note: clean the title (IndexError propagates),
then touch the probe file with exist_ok False inside a try / except OSError /
finally unlink. When touch succeeds the finally removes the file and records
the filename; when the probe file already exists, touch raises, the finally
unlink succeeds, and the annotated FileExistsError propagates; when the
filesystem rejects the creation, the finally unlink itself raises
FileNotFoundError, which replaces the annotated creation error. -/
def probeLoop (touchOK : String → Bool) :
    List Fields → List String → List (Fields × String) →
    Except FnErr (List (Fields × String)) × List String
  | [], files, acc => (.ok acc, files)
  | f :: rest, files, acc =>
    match cleanNameL f.title.data with
    | none => (.error .indexError, files)
    | some nameL =>
      let name : String := ⟨nameL⟩
      if files.contains name then
        (.error (.touchExists name), files.erase name)
      else if touchOK name then
        probeLoop touchOK rest files (acc ++ [(f, name)])
      else
        (.error (.unlinkMissing name), files)

/-- Translation of add_filenames: mkdir the scratch directory (failing when
it already exists), run the probe loop, and in the outer finally rmdir the
scratch directory — rmdir succeeds only on an existing empty directory, and
an rmdir failure replaces whatever result was pending. -/
def add_filenames (touchOK : String → Bool) (notes : List Fields) (fs : FS) :
    Except FnErr (List (Fields × String)) × FS :=
  match fs.scratch with
  | some files =>
    if files = [] then (.error .mkdirExists, ⟨none⟩) else (.error .rmdirFailed, fs)
  | none =>
    match probeLoop touchOK notes [] [] with
    | (res, files) =>
      if files = [] then (res, ⟨none⟩) else (.error .rmdirFailed, ⟨some files⟩)

/-- Errors of parse_tags. indexError models indexing the last character of
the empty bracket-stripped tag string; spaceInTag is the ValueError naming
the owning note's title raised when a cleaned tag contains a space. -/
inductive TagErr where
  | indexError
  | spaceInTag (title : String)
  deriving DecidableEq

/-- Python str.split on a comma, on character lists (empty input gives one
empty field, adjacent commas give empty fields; rsplit with no maxsplit is
the same partition). -/
def splitComma : List Char → List (List Char)
  | [] => [[]]
  | c :: rest =>
    match splitComma rest with
    | [] => [[]]
    | g :: gs => if c = ',' then [] :: g :: gs else (c :: g) :: gs

/-- The per-note body of parse_tags: strip the raw tag string, drop the
first and last character (Python slice 1:-1) and strip again, index the last
character (IndexError on an empty result), drop one trailing comma, split on
commas, strip every part, and reject any part containing a space. -/
def parse_tags_note (title tagsRaw : String) : Except TagErr (List String) :=
  let tags := pyStripL tagsRaw.data
  let twb := pyStripL ((tags.drop 1).dropLast)
  match twb.getLast? with
  | none => .error .indexError
  | some c =>
    let twb2 := if c = ',' then twb.dropLast else twb
    let cleaned := (splitComma twb2).map pyStripL
    if cleaned.any (fun t => t.contains ' ') then .error (.spaceInTag title)
    else .ok (cleaned.map fun l => (⟨l⟩ : String))

/-- Translation of parse_tags: run the body on every note in order, raising
at the first failure, and attach the cleaned tag list to each note. -/
def parse_tags : List (Fields × String) → Except TagErr (List (Fields × String × List String))
  | [] => .ok []
  | (f, fn) :: rest =>
    match parse_tags_note f.title f.tags with
    | .error e => .error e
    | .ok ct =>
      match parse_tags rest with
      | .error e => .error e
      | .ok rs => .ok ((f, fn, ct) :: rs)

/-- Translation of validate_dir on the two properties it inspects. -/
def validate_dir (out_dir_exists out_dir_is_dir : Bool) : Except String Unit :=
  if !out_dir_exists then .error "out_dir_path must exist"
  else if !out_dir_is_dir then .error "out_dir_path must be a directory"
  else .ok ()

/-- Lexicographic comparison of character lists by code point, the order
Python sorted uses on strings. -/
def lexLe : List Char → List Char → Bool
  | [], _ => true
  | _ :: _, [] => false
  | a :: as, b :: bs => if a < b then true else if a = b then lexLe as bs else false

/-- Lexicographic comparison of strings by code point. -/
def strLe (a b : String) : Bool := lexLe a.data b.data

/-- Insertion of one string into a sorted list (helper of sortStrs). -/
def insertStr (a : String) : List String → List String
  | [] => [a]
  | b :: l => if strLe a b then a :: b :: l else b :: insertStr a l

/-- Insertion sort by strLe; Python sorted on distinct strings produces
exactly this order. -/
def sortStrs : List String → List String
  | [] => []
  | a :: l => insertStr a (sortStrs l)

/-- Translation of add_mres_tag: append the synthetic marker tag. -/
def add_mres_tag (tags : List String) : List String := tags ++ ["mres"]

/-- Translation of dropping_duplicates_and_sorting_tags:
sorted(list(set(tags))) keeps one copy of every tag and sorts
lexicographically; which duplicate copy survives is irrelevant after
sorting, so set is modelled by List.dedup. -/
def dropping_duplicates_and_sorting_tags (tags : List String) : List String :=
  sortStrs tags.dedup

/-- The tag normalization applied to every note inside form_posts:
add_mres_tag then dropping_duplicates_and_sorting_tags. -/
def final_tags (tags : List String) : List String :=
  dropping_duplicates_and_sorting_tags (add_mres_tag tags)

/-- Python str.title character scan: a letter directly after a letter is
lowered, any other letter is uppered. -/
def titleCaseGo : Bool → List Char → List Char
  | _, [] => []
  | prevAlpha, c :: rest =>
    (if prevAlpha then c.toLower else c.toUpper) :: titleCaseGo c.isAlpha rest

/-- Python str.title on a string (add_title_as_markdown uses it). -/
def pyTitle (s : String) : String := ⟨titleCaseGo false s.data⟩

/-- The document produced by form_posts for one note. -/
structure Post where
  content : String
  tags : List String
  cdt : String
  mdt : String
  path : String
  deriving DecidableEq

/-- Translation of add_title_as_markdown: prepend the title-cased title as a
markdown header followed by a blank line. -/
def add_title_as_markdown (title content : String) : String :=
  "# " ++ pyTitle title ++ "\n\n" ++ content

/-- Translation of add_new_line_after_content. -/
def add_new_line_after_content (content : String) : String := content ++ "\n"

/-- Translation of form_posts, with the wall-clock modification time passed
in as now: normalize the tags, render the body, and compute the output path
as the directory joined with the derived filename. -/
def form_posts (now out_dir : String) (notes : List (Fields × String × List String)) :
    List Post :=
  notes.map fun nt =>
    { content := add_new_line_after_content (add_title_as_markdown nt.1.title nt.1.content)
      tags := final_tags nt.2.2
      cdt := nt.1.datetime
      mdt := now
      path := out_dir ++ "/" ++ nt.2.1 }

/-- Translation of write_notes, parameterised by path existence: for each
post in order, raise naming the path when it exists and overwriting is not
allowed (no further posts are written); otherwise record the path and write.
The second component is the list of files actually written so far (the
side effect), which is also the returned value on success. -/
def write_notes (pathExists : String → Bool) (overwrite_ok : Bool) :
    List Post → List String → Except String (List String) × List String
  | [], written => (.ok written, written)
  | p :: rest, written =>
    if pathExists p.path && !overwrite_ok then (.error p.path, written)
    else write_notes pathExists overwrite_ok rest (written ++ [p.path])

/-- Translation of output_notes: form the posts then write them. -/
def output_notes (pathExists : String → Bool) (now out_dir : String) (overwrite_ok : Bool)
    (notes : List (Fields × String × List String)) : Except String (List String) × List String :=
  write_notes pathExists overwrite_ok (form_posts now out_dir notes) []

/-- The error of the whole pipeline, wrapping each stage's error. -/
inductive PipeErr where
  | split (e : SplitErr)
  | decomp (e : DecompErr)
  | dt (count : Nat) (failures : List (String × String))
  | fname (e : FnErr)
  | tag (e : TagErr)
  | write (path : String)
  deriving DecidableEq

/-- Translation of flat_note_to_atoms, the entry operation: split and
validate the log, decompose the notes, validate the datetimes, derive the
filenames, parse the tags, then form and write the posts. The second
component is the list of files actually written. Note that validate_dir is
never invoked anywhere in the source, so this definition takes no property
of the output directory other than its name. -/
def flat_note_to_atoms (parseDT : String → Option String) (pathExists : String → Bool)
    (touchOK : String → Bool) (content out_dir : String) (overwrite_ok : Bool)
    (now : String) : Except PipeErr (List String) × List String :=
  match get_notes_from_path content with
  | .error e => (.error (.split e), [])
  | .ok notes =>
    match decompose_notes notes with
    | .error e => (.error (.decomp e), [])
    | .ok fields =>
      match validate_datetimes parseDT fields with
      | .error cf => (.error (.dt cf.1 cf.2), [])
      | .ok fields2 =>
        match (add_filenames touchOK fields2 ⟨none⟩).1 with
        | .error e => (.error (.fname e), [])
        | .ok named =>
          match parse_tags named with
          | .error e => (.error (.tag e), [])
          | .ok tagged =>
            match output_notes pathExists now out_dir overwrite_ok tagged with
            | (.error p, written) => (.error (.write p), written)
            | (.ok ws, written) => (.ok ws, written)

/-- Modelled from the spec (section 6, input note format): a block made of a
timestamp, the literal " - ", a title whose first dot or question mark is
its terminator, that terminating punctuation, a space, the content, the
literal " tags: " and a bracketed tag list. Used only to phrase claims that
quantify over blocks conforming to the documented format. -/
def SpecBlock (ts title punct content tagsInner note : String) : Prop :=
  note = ts ++ " - " ++ title ++ punct ++ " " ++ content ++ " tags: " ++ "[" ++ tagsInner ++ "]" ∧
  dtOK ts.data = true ∧ (punct = "." ∨ punct = "?") ∧ title ≠ "" ∧
  (∀ c ∈ title.data, c ≠ '.' ∧ c ≠ '?') ∧ content ≠ ""

/-- Totality of the code-point lexicographic order on character lists. -/
theorem lexLe_total (a b : List Char) : lexLe a b = true ∨ lexLe b a = true := by
  induction a generalizing b with
  | nil => left; rfl
  | cons x xs ih =>
    cases b with
    | nil => right; rfl
    | cons y ys =>
      rcases lt_trichotomy x y with h | h | h
      · left; simp [lexLe, h]
      · subst h
        rcases ih ys with h2 | h2
        · left; simp [lexLe, h2]
        · right; simp [lexLe, h2]
      · right; simp [lexLe, h]

/-- Transitivity of the code-point lexicographic order on character lists. -/
theorem lexLe_trans (a b c : List Char) (h1 : lexLe a b = true) (h2 : lexLe b c = true) :
    lexLe a c = true := by
  induction a generalizing b c with
  | nil => rfl
  | cons x xs ih =>
    cases b with
    | nil => simp [lexLe] at h1
    | cons y ys =>
      cases c with
      | nil => simp [lexLe] at h2
      | cons z zs =>
        simp only [lexLe] at h1 h2 ⊢
        by_cases hxy : x < y
        · by_cases hyz : y < z
          · simp [lt_trans hxy hyz]
          · simp only [hyz, if_false] at h2
            by_cases hyz2 : y = z
            · subst hyz2; simp [hxy]
            · simp [hyz2] at h2
        · simp only [hxy, if_false] at h1
          by_cases hxy2 : x = y
          · subst hxy2
            simp only [if_pos rfl] at h1
            by_cases hxz : x < z
            · simp [hxz]
            · simp only [hxz, if_false] at h2 ⊢
              by_cases hxz2 : x = z
              · subst hxz2
                simp only [if_pos rfl] at h2 ⊢
                exact ih ys zs h1 h2
              · simp [hxz2] at h2
          · simp [hxy2] at h1

/-- Totality of strLe. -/
theorem strLe_total (a b : String) : strLe a b = true ∨ strLe b a = true :=
  lexLe_total a.data b.data

/-- Transitivity of strLe. -/
theorem strLe_trans {a b c : String} (h1 : strLe a b = true) (h2 : strLe b c = true) :
    strLe a c = true :=
  lexLe_trans a.data b.data c.data h1 h2

/-- Membership in an insertion. -/
theorem mem_insertStr (x a : String) (l : List String) :
    x ∈ insertStr a l ↔ x = a ∨ x ∈ l := by
  induction l with
  | nil => simp [insertStr]
  | cons b bs ih =>
    simp only [insertStr]
    split
    · simp [List.mem_cons]
    · simp only [List.mem_cons, ih]
      tauto

/-- Inserting into a list sorted by strLe keeps it sorted. -/
theorem pairwise_insertStr (a : String) (l : List String)
    (h : l.Pairwise fun x y => strLe x y = true) :
    (insertStr a l).Pairwise fun x y => strLe x y = true := by
  induction l with
  | nil => simp [insertStr]
  | cons b bs ih =>
    rcases h with - | ⟨hb, hbs⟩
    simp only [insertStr]
    split
    next hab =>
      refine List.Pairwise.cons ?_ (List.Pairwise.cons hb hbs)
      intro x hx
      rcases List.mem_cons.mp hx with rfl | hx2
      · exact hab
      · exact strLe_trans hab (hb x hx2)
    next hab =>
      refine List.Pairwise.cons ?_ (ih hbs)
      intro x hx
      rcases (mem_insertStr x a bs).mp hx with rfl | hx2
      · rcases strLe_total x b with h2 | h2
        · exact absurd h2 hab
        · exact h2
      · exact hb x hx2

/-- The insertion sort result is a permutation of its input. -/
theorem perm_insertStr (a : String) (l : List String) :
    List.Perm (insertStr a l) (a :: l) := by
  induction l with
  | nil => exact List.Perm.refl _
  | cons b bs ih =>
    simp only [insertStr]
    split
    · exact List.Perm.refl _
    · exact (ih.cons b).trans (List.Perm.swap a b bs)

/-- The insertion sort output is sorted under strLe. -/
theorem sortStrs_pairwise (l : List String) :
    (sortStrs l).Pairwise fun x y => strLe x y = true := by
  induction l with
  | nil => simp [sortStrs]
  | cons a as ih => exact pairwise_insertStr a (sortStrs as) ih

/-- The insertion sort output is a permutation of the input. -/
theorem sortStrs_perm (l : List String) : List.Perm (sortStrs l) l := by
  induction l with
  | nil => exact List.Perm.refl _
  | cons a as ih => exact (perm_insertStr a (sortStrs as)).trans (ih.cons a)

/-- C7: for every note that reaches document assembly, whatever duplicate
tags or orderings the cleaned tag list carries, the tag list attached to the
written document (final_tags, the composition of add_mres_tag and
dropping_duplicates_and_sorting_tags applied inside form_posts) is
lexicographically sorted, has no duplicates, and contains the synthetic
marker tag mres exactly once. -/
theorem C7_final_tags_sorted_nodup_mres (tags : List String) :
    ((final_tags tags).Pairwise fun x y => strLe x y = true) ∧
    (final_tags tags).Nodup ∧ (final_tags tags).count "mres" = 1 := by
  have hperm : List.Perm (final_tags tags) (add_mres_tag tags).dedup :=
    sortStrs_perm (add_mres_tag tags).dedup
  have hnodup : (final_tags tags).Nodup :=
    hperm.nodup_iff.mpr (List.nodup_dedup (add_mres_tag tags))
  have hmem : "mres" ∈ (final_tags tags) := by
    rw [hperm.mem_iff, List.mem_dedup]
    simp [add_mres_tag]
  exact ⟨sortStrs_pairwise _, hnodup, List.count_eq_one_of_mem hnodup hmem⟩

/-- C1: the spec's worked example. The extractor decomposes the example note
into the stated timestamp, title, content and raw tag string; the tag parser
yields the raw tags errand and home; normalization produces the sorted
deduplicated list with the synthetic marker; and the filename derivation
yields buy_milk.md. -/
theorem C1_worked_example :
    extract_note_fields "2024-01-01 10:00:00 - Buy milk. Need milk for coffee tags: [errand, home,]" =
      some ⟨"2024-01-01 10:00:00", "Buy milk", "Need milk for coffee", "[errand, home,]"⟩ ∧
    parse_tags_note "Buy milk" "[errand, home,]" = .ok ["errand", "home"] ∧
    final_tags ["errand", "home"] = ["errand", "home", "mres"] ∧
    clean_name "Buy milk" = some "buy_milk.md" := by
  decide

/-- C2: evaluation of decompose_notes on a batch whose second block fails
field extraction. The batch raises, but the error is the TypeError produced
by entering the with statement on the ValueError class: it carries no
failure count, no indices and no raw block contents — the diagnostic
ValueError the source prepares add_note calls for is never constructed, and
the only raise in decompose_notes fires just when no block at all matches. -/
theorem C2_diagnostics_never_raised :
    extract_note_fields "garbage]" = none ∧
    decompose_notes
      ["2024-01-01 10:00:00 - Buy milk. Need milk for coffee tags: [errand, home,]", "garbage]"] =
      .error .withValueErrorTypeError := by
  decide

/-- Helper for C3: the failure list of a validate_datetimes error contains
the title and raw timestamp of every note whose timestamp fails to parse,
and the reported count is its length. -/
theorem validate_datetimes_error_complete (parseDT : String → Option String)
    (notes : List Fields) (cnt : Nat) (fails : List (String × String))
    (h : validate_datetimes parseDT notes = .error (cnt, fails)) :
    cnt = fails.length ∧
    ∀ n ∈ notes, parseDT n.datetime = none → (n.title, n.datetime) ∈ fails := by
  simp only [validate_datetimes] at h
  split at h
  · exact absurd h (by simp)
  · rw [Except.error.injEq, Prod.mk.injEq] at h
    obtain ⟨hc, hf⟩ := h
    subst hf
    subst hc
    refine ⟨rfl, ?_⟩
    intro n hn hparse
    have hmem : (n, false) ∈ notes.map (fun n =>
        match parseDT n.datetime with
        | some d => ({ n with datetime := d }, true)
        | none => (n, false)) := by
      have := List.mem_map_of_mem
        (fun n => match parseDT n.datetime with
          | some d => ({ n with datetime := d }, true)
          | none => (n, false)) hn
      simpa [hparse] using this
    have hfil : (n, false) ∈ (notes.map (fun n =>
        match parseDT n.datetime with
        | some d => ({ n with datetime := d }, true)
        | none => (n, false))).filter (fun p => !p.2) :=
      List.mem_filter.mpr ⟨hmem, rfl⟩
    exact List.mem_map_of_mem (fun p : Fields × Bool => (p.1.title, p.1.datetime)) hfil

/-- C3: when one or more notes of a successfully split and decomposed batch
have raw timestamps the parser rejects, the pipeline stops with the single
batch-wide datetime error; that error reports the count of failures and the
title with raw timestamp of every failing note, and the list of files
written by the whole run is empty. -/
theorem C3_unparseable_datetime_all_or_nothing (parseDT : String → Option String)
    (pathExists touchOK : String → Bool) (content out_dir now : String) (overwrite_ok : Bool)
    (blocks : List String) (notes : List Fields) (cnt : Nat) (fails : List (String × String))
    (h1 : get_notes_from_path content = .ok blocks)
    (h2 : decompose_notes blocks = .ok notes)
    (h3 : validate_datetimes parseDT notes = .error (cnt, fails)) :
    flat_note_to_atoms parseDT pathExists touchOK content out_dir overwrite_ok now =
      (.error (.dt cnt fails), []) ∧
    cnt = fails.length ∧
    ∀ n ∈ notes, parseDT n.datetime = none → (n.title, n.datetime) ∈ fails := by
  have hrest := validate_datetimes_error_complete parseDT notes cnt fails h3
  refine ⟨?_, hrest.1, hrest.2⟩
  simp only [flat_note_to_atoms, h1, h2, h3]

/-- Witness for C3 at a concrete batch: a parser rejecting everything, one
note, the pipeline ends in the datetime error naming the note's title and
raw timestamp, and nothing is written. -/
theorem C3_witness :
    flat_note_to_atoms (fun _ => none) (fun _ => false) (fun _ => true)
      "2024-01-01 10:00:00 - Buy milk. Need milk for coffee tags: [errand, home,]" "/out" false "MDT" =
      (.error (.dt 1 [("Buy milk", "2024-01-01 10:00:00")]), []) ∧
    (1 : Nat) = [("Buy milk", "2024-01-01 10:00:00")].length ∧
    ∀ n ∈ [(⟨"2024-01-01 10:00:00", "Buy milk", "Need milk for coffee", "[errand, home,]"⟩ : Fields)],
      (fun _ => (none : Option String)) n.datetime = none →
      (n.title, n.datetime) ∈ [("Buy milk", "2024-01-01 10:00:00")] :=
  C3_unparseable_datetime_all_or_nothing (fun _ => none) (fun _ => false) (fun _ => true)
    "2024-01-01 10:00:00 - Buy milk. Need milk for coffee tags: [errand, home,]" "/out" "MDT" false
    ["2024-01-01 10:00:00 - Buy milk. Need milk for coffee tags: [errand, home,]"]
    [⟨"2024-01-01 10:00:00", "Buy milk", "Need milk for coffee", "[errand, home,]"⟩]
    1 [("Buy milk", "2024-01-01 10:00:00")] (by decide) (by decide) (by decide)

/-- C4: the entry operation never checks the output directory. validate_dir
would reject a missing directory, but flat_note_to_atoms never invokes it
(its result does not depend on any property of the directory), so on a
missing output directory every processing stage runs and the write is even
attempted: the run below succeeds and reports a file written under the
nonexistent directory instead of failing before processing. -/
theorem C4_missing_dir_not_checked :
    validate_dir false true = .error "out_dir_path must exist" ∧
    flat_note_to_atoms (fun s => some s) (fun _ => false) (fun _ => true)
      "2024-01-01 10:00:00 - Buy milk. Need milk for coffee tags: [errand, home,]"
      "/nonexistent" false "MDT" =
      (.ok ["/nonexistent/buy_milk.md"], ["/nonexistent/buy_milk.md"]) := by
  decide

/-- C6 counterexample: the claim quantifies over every title, but on a title
consisting of whitespace only the code indexes the last character of the
empty cleaned string and raises IndexError (modelled as none), while the
transform the claim describes (with its step removing one trailing
punctuation character only if present) produces the extension alone. -/
theorem C6_cex_whitespace_title : clean_name " " = none ∧ spec_filename " " = ".md" := by
  decide

/-- C6 amended: for every title whose lower-cased whitespace-trimmed form is
nonempty, the derived filename is exactly the transform the claim lists:
lower-case, trim, remove one trailing question mark, comma or dot if
present, replace spaces by underscores, append the extension, then delete
every occurrence of the disallowed characters. -/
theorem C6_amended_nonempty_title (title : String)
    (h : pyStripL (lowerL title.data) ≠ []) :
    clean_name title = some (spec_filename title) := by
  simp only [clean_name, cleanNameL, spec_filename]
  obtain ⟨c, hc⟩ : ∃ c, (pyStripL (lowerL title.data)).getLast? = some c := by
    cases hgl : (pyStripL (lowerL title.data)).getLast? with
    | none => exact absurd (List.getLast?_eq_none_iff.mp hgl) h
    | some c => exact ⟨c, rfl⟩
  rw [hc]
  rfl

/-- Witness for C6 amended at the example title. -/
theorem C6_amended_witness :
    pyStripL (lowerL ("Buy milk").data) ≠ [] ∧
    clean_name "Buy milk" = some (spec_filename "Buy milk") :=
  ⟨by decide, C6_amended_nonempty_title "Buy milk" (by decide)⟩

/-- C10: whenever the raw tag string strips to nothing between the brackets
(for example the empty bracket pair, with or without inner whitespace), the
tag parser raises the uncaught IndexError from indexing the last character
of the empty string — not the space-in-tag ValueError nor any other
specified fatal error. -/
theorem C10_empty_tags_index_error (title tagsRaw : String)
    (h : pyStripL (((pyStripL tagsRaw.data).drop 1).dropLast) = []) :
    parse_tags_note title tagsRaw = .error .indexError := by
  simp only [parse_tags_note]
  rw [h]
  rfl

/-- Witness for C10 at the bracket pair containing one space. -/
theorem C10_witness :
    pyStripL (((pyStripL ("[ ]").data).drop 1).dropLast) = [] ∧
    parse_tags_note "Buy milk" "[ ]" = .error .indexError :=
  ⟨by decide, C10_empty_tags_index_error "Buy milk" "[ ]" (by decide)⟩

/-- Conversion of a valid code point round-trips through Char.ofNat. -/
theorem char_toNat_ofNat (m : Nat) (h : m.isValidChar) : (Char.ofNat m).toNat = m := by
  rw [Char.ofNat, dif_pos h]
  rfl

/-- Lower-casing a character twice is the same as lower-casing it once. -/
theorem toLower_idem (c : Char) : c.toLower.toLower = c.toLower := by
  by_cases h : c.toNat ≥ 65 ∧ c.toNat ≤ 90
  · have h2 : (c.toNat + 32).isValidChar := Or.inl (by omega)
    have e1 : c.toLower = Char.ofNat (c.toNat + 32) := by
      simp only [Char.toLower]
      rw [if_pos h]
    rw [e1]
    simp only [Char.toLower]
    rw [char_toNat_ofNat _ h2, if_neg (by omega)]
  · have e1 : c.toLower = c := by
      simp only [Char.toLower]
      rw [if_neg h]
    rw [e1, e1]

/-- A map each of whose values is fixed is the identity. -/
theorem mapId_of_mem (f : Char → Char) (l : List Char) (h : ∀ c ∈ l, f c = c) :
    l.map f = l := by
  induction l with
  | nil => rfl
  | cons c cs ih =>
    simp only [List.map_cons]
    rw [h c (List.mem_cons_self c cs), ih fun x hx => h x (List.mem_cons_of_mem c hx)]

/-- Stripping only removes characters. -/
theorem pyStripL_subset (l : List Char) : ∀ c ∈ pyStripL l, c ∈ l := by
  intro c hc
  unfold pyStripL at hc
  rw [List.mem_reverse] at hc
  have h1 := (List.dropWhile_sublist _).subset hc
  rw [List.mem_reverse] at h1
  exact (List.dropWhile_sublist _).subset h1

/-- C9 amended: the cleaning transform is stable except for the extension it
unconditionally appends: for every name the transform produced, as long as
that name carries no leading or trailing whitespace, applying the transform
again yields the same name with one more extension appended — so the
derivation is not idempotent, the second application growing the name by
exactly ".md". -/
theorem C9_amended_reapply_appends_extension (t n : String)
    (h : clean_name t = some n) (hs : pyStrip n = n) :
    clean_name n = some (n ++ ".md") := by
  obtain ⟨l, hl, hln⟩ : ∃ l, cleanNameL t.data = some l ∧ (⟨l⟩ : String) = n := by
    unfold clean_name at h
    cases hc : cleanNameL t.data with
    | none => rw [hc] at h; exact absurd h (by simp)
    | some l => rw [hc] at h; exact ⟨l, rfl, by simpa using h⟩
  have hnd : n.data = l := by rw [← hln]
  obtain ⟨c0, hc0⟩ : ∃ c0, (pyStripL (lowerL t.data)).getLast? = some c0 := by
    cases hgl : (pyStripL (lowerL t.data)).getLast? with
    | none =>
      exfalso
      simp only [cleanNameL, hgl] at hl
      exact Option.noConfusion hl
    | some c => exact ⟨c, rfl⟩
  have hleq : n.data = removeDel (underscoreSpaces
      (if c0 = '?' ∨ c0 = ',' ∨ c0 = '.' then (pyStripL (lowerL t.data)).dropLast
        else pyStripL (lowerL t.data)) ++ mdExt) := by
    simp only [cleanNameL, hc0, Option.some.injEq] at hl
    rw [hnd, ← hl]
  have hsub2 : ∀ x ∈ (if c0 = '?' ∨ c0 = ',' ∨ c0 = '.' then
      (pyStripL (lowerL t.data)).dropLast else pyStripL (lowerL t.data)),
      ∃ y, x = Char.toLower y := by
    intro x hx
    have hx1 : x ∈ pyStripL (lowerL t.data) := by
      split at hx
      · exact (List.dropLast_sublist _).subset hx
      · exact hx
    have hx2 : x ∈ lowerL t.data := pyStripL_subset (lowerL t.data) x hx1
    simp only [lowerL, List.mem_map] at hx2
    obtain ⟨y, -, hy⟩ := hx2
    exact ⟨y, hy.symm⟩
  have hchars : ∀ ch ∈ n.data, ch.toLower = ch ∧ ch ≠ ' ' ∧ (!(delSet.contains ch)) = true := by
    intro ch hch
    rw [hleq] at hch
    simp only [removeDel, List.mem_filter] at hch
    obtain ⟨hmem, hP⟩ := hch
    rcases List.mem_append.mp hmem with hm | hm
    · simp only [underscoreSpaces, List.mem_map] at hm
      obtain ⟨y0, hy0, hy0e⟩ := hm
      obtain ⟨y, hyl⟩ := hsub2 y0 hy0
      by_cases hsp : y0 = ' '
      · rw [hsp, if_pos rfl] at hy0e
        rw [← hy0e]
        exact ⟨by decide, by decide, by rw [← hy0e] at hP; exact hP⟩
      · rw [if_neg hsp] at hy0e
        subst hy0e
        exact ⟨by rw [hyl]; exact toLower_idem y, hsp, hP⟩
    · have hm3 : ch ∈ ['.', 'm', 'd'] := hm
      fin_cases hm3 <;> exact ⟨by decide, by decide, by decide⟩
  have hlow : lowerL n.data = n.data := by
    simp only [lowerL]
    exact mapId_of_mem _ _ fun ch hch => (hchars ch hch).1
  have hstrip : pyStripL n.data = n.data := by
    have h0 : (pyStrip n).data = pyStripL n.data := rfl
    rw [← h0, hs]
  have hsplit : n.data = removeDel (underscoreSpaces
      (if c0 = '?' ∨ c0 = ',' ∨ c0 = '.' then (pyStripL (lowerL t.data)).dropLast
        else pyStripL (lowerL t.data))) ++ mdExt := by
    rw [hleq]
    simp only [removeDel, List.filter_append]
    congr 1
  have hlast : n.data.getLast? = some 'd' := by
    rw [hsplit, show (mdExt : List Char) = ['.', 'm'] ++ ['d'] from rfl, ← List.append_assoc,
      List.getLast?_concat]
  have hus : underscoreSpaces n.data = n.data := by
    simp only [underscoreSpaces]
    exact mapId_of_mem _ _ fun ch hch => if_neg (hchars ch hch).2.1
  have hrd : removeDel n.data = n.data := by
    simp only [removeDel]
    exact List.filter_eq_self.mpr fun ch hch => (hchars ch hch).2.2
  have hfinal : removeDel (underscoreSpaces n.data ++ mdExt) = n.data ++ mdExt := by
    have hsplit2 : removeDel (underscoreSpaces n.data ++ mdExt) =
        removeDel (underscoreSpaces n.data) ++ removeDel mdExt := by
      simp only [removeDel, List.filter_append]
    rw [hsplit2, hus, hrd, show removeDel mdExt = mdExt from rfl]
  have hn1 : pyStripL (lowerL n.data) = n.data := by rw [hlow, hstrip]
  simp only [clean_name, cleanNameL, hn1, hlast]
  rw [if_neg (by decide), hfinal]
  have hdm : (n ++ ".md").data = n.data ++ mdExt := by
    rw [String.data_append]
    rfl
  simp only [Option.map_some']
  exact congrArg some (String.ext hdm.symm).symm

/-- Witness for C9 amended at the worked example name. -/
theorem C9_amended_witness :
    clean_name "Buy milk" = some "buy_milk.md" ∧
    pyStrip "buy_milk.md" = "buy_milk.md" ∧
    clean_name "buy_milk.md" = some ("buy_milk.md" ++ ".md") :=
  ⟨by decide, by decide,
    C9_amended_reapply_appends_extension "Buy milk" "buy_milk.md" (by decide) (by decide)⟩

/-- C9 counterexample: the cleaning transform is not idempotent, because it
unconditionally appends the extension: the name derived from the example
title maps, under a second application, to a name with a doubled extension. -/
theorem C9_cex_double_extension :
    clean_name "Buy milk" = some "buy_milk.md" ∧
    clean_name "buy_milk.md" = some "buy_milk.md.md" := by
  decide

/-- Helper for C8: started on an empty scratch directory, the probe loop
leaves it empty on every exit path — each probe file created by touch is
unlinked by the inner finally, and on the error paths no file survives. -/
theorem probeLoop_files_empty (touchOK : String → Bool) (notes : List Fields)
    (acc : List (Fields × String)) :
    (probeLoop touchOK notes [] acc).2 = [] := by
  induction notes generalizing acc with
  | nil => rfl
  | cons f rest ih =>
    simp only [probeLoop]
    cases hcn : cleanNameL f.title.data with
    | none => rfl
    | some nameL =>
      simp only [List.contains, List.elem]
      by_cases ht : touchOK (⟨nameL⟩ : String) = true
      · simpa [ht] using ih (acc ++ [(f, ⟨nameL⟩)])
      · simp [ht]

/-- C8: the scratch directory is removed on every exit path — for every
probe oracle and every batch, add_filenames started with no scratch
directory ends with no scratch directory, success or error alike. But when
the filesystem rejects the creation of a probe file, the error that
propagates is the FileNotFoundError of the unlink call in the inner finally
block (which replaces the annotated creation error), not the fatal error the
except branch attached the offending candidate to: on a batch whose probe
for bad_name.md fails, the run ends in unlinkMissing, with the scratch
directory removed. -/
theorem C8_scratch_removed_error_replaced :
    (∀ (touchOK : String → Bool) (notes : List Fields),
      (add_filenames touchOK notes ⟨none⟩).2 = ⟨none⟩) ∧
    add_filenames (fun _ => false) [⟨"2024-01-01 10:00:00", "Bad name", "c", "[t]"⟩] ⟨none⟩ =
      (.error (.unlinkMissing "bad_name.md"), ⟨none⟩) := by
  constructor
  · intro touchOK notes
    rcases hp : probeLoop touchOK notes [] [] with ⟨res, files⟩
    have hfe : files = [] := by
      have h := probeLoop_files_empty touchOK notes []
      rw [hp] at h
      exact h
    subst hfe
    simp [add_filenames, hp]
  · decide

/-- A list passing the timestamp shape check has exactly 19 characters. -/
theorem dtOK_length (l : List Char) (h : dtOK l = true) : l.length = 19 := by
  unfold dtOK at h
  rw [Bool.and_eq_true, beq_iff_eq] at h
  exact h.1.trans (by rfl)

/-- The dollar-anchored tail matches a newline-free tag string whole. -/
theorem tagsTail_all (tags : List Char) (htg : ∀ c ∈ tags, c ≠ '\n') :
    tagsTail tags = some tags := by
  have h1 : tags.takeWhile (fun c => c ≠ '\n') = tags :=
    List.takeWhile_eq_self_iff.mpr (by intro a ha; simpa using htg a ha)
  simp only [tagsTail, h1, List.drop_length]
  simp

/-- One-step unfolding of the content scan on a cons cell. -/
theorem contentLoop_cons (acc : List Char) (c : Char) (rest : List Char) :
    contentLoop acc (c :: rest) =
      if c = '\n' then none
      else if sTags.isPrefixOf rest then
        match tagsTail (rest.drop sTags.length) with
        | some tags => some (acc ++ [c], tags)
        | none => contentLoop (acc ++ [c]) rest
      else contentLoop (acc ++ [c]) rest := rfl

/-- Correctness of the lazy content scan: on a nonempty newline-free content
followed by the " tags: " literal and a newline-free tag string, provided
" tags: " does not occur at any earlier stop position, the scan captures
exactly the content and the tag string. -/
theorem contentLoop_spec : ∀ (content tags acc : List Char),
    content ≠ [] → (∀ c ∈ content, c ≠ '\n') → (∀ c ∈ tags, c ≠ '\n') →
    (∀ i, i < content.length → 1 ≤ i → ¬ (sTags <+: (content.drop i ++ (sTags ++ tags)))) →
    contentLoop acc (content ++ (sTags ++ tags)) = some (acc ++ content, tags) := by
  intro content
  induction content with
  | nil => intro tags acc hne _ _ _; exact absurd rfl hne
  | cons c cs ih =>
    intro tags acc hne hnl htg hfo
    have hcn : c ≠ '\n' := hnl c (List.mem_cons_self c cs)
    cases cs with
    | nil =>
      have hpre : sTags.isPrefixOf (sTags ++ tags) = true :=
        List.isPrefixOf_iff_prefix.mpr (List.prefix_append sTags tags)
      simp only [List.cons_append, List.nil_append]
      rw [contentLoop_cons, if_neg hcn, if_pos hpre, List.drop_left, tagsTail_all tags htg]
    | cons c2 cs2 =>
      have h1 : ¬ sTags <+: (c2 :: (cs2 ++ (sTags ++ tags))) := by
        simpa using hfo 1 (by simp) (le_refl 1)
      simp only [List.cons_append]
      rw [contentLoop_cons, if_neg hcn,
        if_neg (fun hT => h1 (List.isPrefixOf_iff_prefix.mp hT))]
      have ihh := ih tags (acc ++ [c]) (by simp)
        (fun x hx => hnl x (List.mem_cons_of_mem c hx)) htg
        (fun i hi h1i => by
          have := hfo (i + 1) (by simp at hi ⊢; omega) (by omega)
          simpa using this)
      rw [List.cons_append] at ihh
      rw [ihh]
      simp

/-- A candidate title stop at a character other than a dot fails the ". "
boundary. -/
theorem dotSpace_cons_ne (u : Char) (l : List Char) (h : u ≠ '.') :
    dotSpace (u :: l) = none := by
  cases l with
  | nil => rfl
  | cons v l2 => simp [dotSpace, h]

/-- One-step unfolding of the title scan on a cons cell. -/
theorem titleLoop_cons (acc : List Char) (c : Char) (rest : List Char) :
    titleLoop acc (c :: rest) =
      if c = '\n' then none
      else
        match dotSpace rest with
        | some s2 =>
          match contentLoop [] s2 with
          | some (content, tags) => some (acc ++ [c], content, tags)
          | none => titleLoop (acc ++ [c]) rest
        | none => titleLoop (acc ++ [c]) rest := rfl

/-- Correctness of the lazy title scan: on a nonempty title free of dots,
question marks and newlines, followed by the ". " boundary and a tail the
content scan accepts, the scan captures exactly the title and hands the
content captures through. -/
theorem titleLoop_spec : ∀ (title rest2 contentl tagsl acc : List Char),
    title ≠ [] → (∀ c ∈ title, c ≠ '.' ∧ c ≠ '?' ∧ c ≠ '\n') →
    contentLoop [] rest2 = some (contentl, tagsl) →
    titleLoop acc (title ++ '.' :: ' ' :: rest2) = some (acc ++ title, contentl, tagsl) := by
  intro title
  induction title with
  | nil => intro rest2 contentl tagsl acc hne _ _; exact absurd rfl hne
  | cons c cs ih =>
    intro rest2 contentl tagsl acc hne ht hcl
    obtain ⟨hcd, hcq, hcn⟩ := ht c (List.mem_cons_self c cs)
    cases cs with
    | nil =>
      have hds : dotSpace ('.' :: ' ' :: rest2) = some rest2 := by simp [dotSpace]
      simp only [List.cons_append, List.nil_append]
      rw [titleLoop_cons, if_neg hcn, hds]
      simp only [hcl]
    | cons c2 cs2 =>
      have hc2 : c2 ≠ '.' := (ht c2 (List.mem_cons_of_mem c (List.mem_cons_self c2 cs2))).1
      simp only [List.cons_append]
      rw [titleLoop_cons, if_neg hcn, dotSpace_cons_ne c2 _ hc2]
      have ihh := ih rest2 contentl tagsl (acc ++ [c]) (by simp)
        (fun x hx => ht x (List.mem_cons_of_mem c hx)) hcl
      rw [List.cons_append] at ihh
      rw [ihh]
      simp

/-- Evaluation of the extractor on a well-shaped block given as lists: the
composite pattern matches and captures the four fields. -/
theorem extract_eval (tsl titlel contentl tagsl : List Char)
    (hdt : dtOK tsl = true)
    (ht1 : titlel ≠ []) (ht2 : ∀ c ∈ titlel, c ≠ '.' ∧ c ≠ '?' ∧ c ≠ '\n')
    (hc1 : contentl ≠ []) (hc2 : ∀ c ∈ contentl, c ≠ '\n')
    (htg : ∀ c ∈ tagsl, c ≠ '\n')
    (hfo : ∀ i, i < contentl.length → 1 ≤ i →
      ¬ (sTags <+: (contentl.drop i ++ (sTags ++ tagsl)))) :
    extract_note_fields
        ⟨tsl ++ ' ' :: '-' :: ' ' :: (titlel ++ '.' :: ' ' :: (contentl ++ (sTags ++ tagsl)))⟩ =
      some ⟨⟨tsl⟩, ⟨titlel⟩, ⟨contentl⟩, ⟨tagsl⟩⟩ := by
  have hlen : tsl.length = 19 := dtOK_length tsl hdt
  have htl := titleLoop_spec titlel (contentl ++ (sTags ++ tagsl)) contentl tagsl [] ht1 ht2
    (contentLoop_spec contentl tagsl [] hc1 hc2 htg hfo)
  simp only [List.nil_append] at htl
  have hd : (String.mk (tsl ++ ' ' :: '-' :: ' ' ::
        (titlel ++ '.' :: ' ' :: (contentl ++ (sTags ++ tagsl))))).data =
      tsl ++ ' ' :: '-' :: ' ' :: (titlel ++ '.' :: ' ' :: (contentl ++ (sTags ++ tagsl))) := rfl
  simp only [extract_note_fields, hd, List.take_left' hlen, List.drop_left' hlen, hdt,
    eq_self_iff_true, if_true, htl]

/-- C5 amended: the extractor matches exactly the blocks whose title is
terminated by a dot. For every block of the documented shape whose title is
nonempty and free of dots, question marks and newlines, whose terminator is
a dot followed by the separating space, whose content is nonempty,
newline-free and has the block's " tags: " literal as the first occurrence
at a stop position, and whose tag string is newline-free, the composite
pattern matches and returns the four fields. Blocks whose title ends at a
question mark are not matched (see the counterexample): the pattern requires
a literal dot and space after the title. -/
theorem C5_amended_dot_blocks_extracted (ts title content tags : String)
    (hdt : dtOK ts.data = true)
    (ht1 : title.data ≠ [])
    (ht2 : ∀ c ∈ title.data, c ≠ '.' ∧ c ≠ '?' ∧ c ≠ '\n')
    (hc1 : content.data ≠ [])
    (hc2 : ∀ c ∈ content.data, c ≠ '\n')
    (htg : ∀ c ∈ tags.data, c ≠ '\n')
    (hfo : ∀ i, i < content.data.length → 1 ≤ i →
      ¬ (sTags <+: (content.data.drop i ++ (sTags ++ tags.data)))) :
    extract_note_fields (ts ++ " - " ++ title ++ ". " ++ content ++ " tags: " ++ tags) =
      some ⟨ts, title, content, tags⟩ := by
  have hstr : ts ++ " - " ++ title ++ ". " ++ content ++ " tags: " ++ tags =
      ⟨ts.data ++ ' ' :: '-' :: ' ' ::
        (title.data ++ '.' :: ' ' :: (content.data ++ (sTags ++ tags.data)))⟩ := by
    apply String.ext
    simp [String.data_append, sTags, List.append_assoc]
  rw [hstr]
  exact extract_eval ts.data title.data content.data tags.data hdt ht1 ht2 hc1 hc2 htg hfo

/-- Witness for C5 amended at the worked example block. -/
theorem C5_amended_witness :
    dtOK ("2024-01-01 10:00:00").data = true ∧
    extract_note_fields
        ("2024-01-01 10:00:00" ++ " - " ++ "Buy milk" ++ ". " ++ "Need milk for coffee" ++
          " tags: " ++ "[errand, home,]") =
      some ⟨"2024-01-01 10:00:00", "Buy milk", "Need milk for coffee", "[errand, home,]"⟩ :=
  ⟨by decide,
    C5_amended_dot_blocks_extracted "2024-01-01 10:00:00" "Buy milk" "Need milk for coffee"
      "[errand, home,]" (by decide) (by decide) (by decide) (by decide) (by decide) (by decide)
      (by decide)⟩

/-- C5 counterexample: a block conforming to the documented note format with
a question mark as the title's terminating punctuation is not matched at
all by the extractor, because the composite pattern demands a literal dot
and space after the title group. -/
theorem C5_cex_question_title :
    SpecBlock "2024-01-01 10:00:00" "Buy milk" "?" "Need milk" "errand"
      "2024-01-01 10:00:00 - Buy milk? Need milk tags: [errand]" ∧
    extract_note_fields "2024-01-01 10:00:00 - Buy milk? Need milk tags: [errand]" = none := by
  constructor
  · refine ⟨by decide, by decide, Or.inr rfl, by decide, by decide, by decide⟩
  · decide
